import Mathlib

/-!
Verification of `lagproxy.py`, a TCP relay that forwards a local port to a
remote host/port, optionally adding simulated latency.

The embedding below is a shallow model of the Python source:

* `Delay` models the `Delay` class (lines 58-73).  Python's
  `random.uniform(a, b)` computes `a + (b-a)*random()` where `random()` draws
  from `[0, 1]`; we expose the draw as an explicit parameter `u`.
* `BackloggedData` models the `BackloggedData` class (lines 75-81); the
  current clock reading `time.time()` is the explicit parameter `now`.
* `readerChunks` / `readerEntries` model the read loop of `PipeThread.run`
  (lines 113-120): read a chunk, stop on an empty result (`if not bytes`)
  or on an exception, otherwise enqueue a `BackloggedData`.
* `cleanerRun` models the loop of `PipeCleanerThread.run` (lines 90-94):
  dequeue an entry in FIFO order, `sleep(max(0, waituntil - now))`, then
  call `sink.send(payload)`.  Times are rationals; after the sleep the
  clock reads `now + max 0 (waituntil - now)`.  `cleanerRun` records the
  arguments of the successive `send` calls; what each call actually
  transmits is modelled by `cleanerRunNet`, because `socket.send` may
  accept only a prefix of its argument (it returns the number of bytes
  accepted, a value line 93 discards — there is no retry loop and no
  `sendall`) and may raise, ending the cleaner thread.

Bytes are modelled as natural numbers, a chunk as a `List ℕ`, and clock
readings and durations as `ℚ`.
-/

namespace Lagproxy

/-- The `Delay` class: a minimum and maximum latency in seconds. -/
structure Delay where
  minseconds : ℚ
  maxseconds : ℚ
deriving Repr, DecidableEq

/-- `Delay.__init__(minseconds, maxseconds=None)`.  Python evaluates
`not maxseconds` as true when `maxseconds` is `None` and also when it is `0`;
in either of those cases, or when `maxseconds < minseconds`, the maximum is
replaced by `minseconds`. -/
def Delay.init (minseconds : ℚ) (maxseconds : Option ℚ) : Delay :=
  match maxseconds with
  | none => ⟨minseconds, minseconds⟩
  | some m => if m = 0 ∨ m < minseconds then ⟨minseconds, minseconds⟩ else ⟨minseconds, m⟩

/-- `Delay.getrandom`, i.e. `random.uniform(minseconds, maxseconds)`, which
CPython computes as `minseconds + (maxseconds-minseconds)*random()`; the
underlying draw `random()` from `[0, 1]` is the parameter `u`. -/
def Delay.getrandom (d : Delay) (u : ℚ) : ℚ :=
  d.minseconds + (d.maxseconds - d.minseconds) * u

/-- The `BackloggedData` class: a payload and the absolute time
(`waituntil`) before which it must not be sent. -/
structure BackloggedData where
  waituntil : ℚ
  payload : List ℕ
deriving Repr, DecidableEq

/-- `BackloggedData.__init__(payload, delay)`: `waituntil` is
`time.time() + delay.getrandom()` when a delay policy is configured
(a `Delay` instance is always truthy, `None` is falsy), and bare
`time.time()` otherwise.  `now` is the clock reading at construction
time (which is the enqueue time: the object is built inside the
`backlog.put` call), and `u` the random draw consumed by `getrandom`. -/
def BackloggedData.init (payload : List ℕ) (delay : Option Delay) (now u : ℚ) :
    BackloggedData :=
  match delay with
  | some d => ⟨now + d.getrandom u, payload⟩
  | none => ⟨now, payload⟩

/-- One observable outcome of `self.source.recv(1024)`: either it returns a
chunk of bytes (possibly empty, which signals end-of-stream), or it raises. -/
inductive ReadEvent where
  | recv (b : List ℕ)
  | err
deriving Repr, DecidableEq

/-- The chunks that the read loop of `PipeThread.run` consumes before it
stops: it breaks at the first empty `recv` result or at the first
exception, and otherwise keeps the chunk. -/
def readerChunks : List ReadEvent → List (List ℕ)
  | [] => []
  | ReadEvent.err :: _ => []
  | ReadEvent.recv b :: es => if b = [] then [] else b :: readerChunks es

/-- The read loop of `PipeThread.run` as it fills the backlog queue: each
consumed event comes with the clock reading `t` at which the chunk was read
and the random draw `u` used for its delay sample.  For every non-empty
chunk a `BackloggedData` is constructed and enqueued; the loop stops at the
first empty read or exception. -/
def readerEntries (delay : Option Delay) : List (ReadEvent × ℚ × ℚ) → List BackloggedData
  | [] => []
  | (ReadEvent.err, _, _) :: _ => []
  | (ReadEvent.recv b, t, u) :: rest =>
      if b = [] then []
      else BackloggedData.init b delay t u :: readerEntries delay rest

/-- The loop of `PipeCleanerThread.run`: starting with clock reading `t`,
repeatedly take the head entry of the FIFO backlog, sleep
`max(0, waituntil - now)`, then call `sink.send(payload)`.  The result
pairs each payload with the clock reading of its `send` call: this is the
record of the send calls and their arguments, not of what the kernel
transmits (for that see `cleanerRunNet`). -/
def cleanerRun : ℚ → List BackloggedData → List (ℚ × List ℕ)
  | _, [] => []
  | t, e :: es =>
      let t2 := t + max 0 (e.waituntil - t)
      (t2, e.payload) :: cleanerRun t2 es

/-- The payload arguments of the successive `sink.send` calls, in order. -/
def sinkWrites (t0 : ℚ) (es : List BackloggedData) : List (List ℕ) :=
  (cleanerRun t0 es).map Prod.snd

/-- The concatenation of the payloads passed to `sink.send`.  This equals
the bytes arriving at the sink only when every `send` call transmits its
argument in full (`wireBytes` drops that assumption). -/
def sinkBytes (t0 : ℚ) (es : List BackloggedData) : List ℕ :=
  (sinkWrites t0 es).flatten

/-- The concatenation of all bytes the reader consumed from the source. -/
def sourceBytes (evs : List ReadEvent) : List ℕ :=
  (readerChunks evs).flatten

/-- Outcome of one `sink.send(payload)` call: either the kernel accepts the
first `n` bytes and `send` returns `n` (a return value line 93 discards),
or the call raises, which ends the cleaner thread. -/
inductive SendOutcome where
  | accepted (n : ℕ)
  | raised
deriving Repr, DecidableEq

/-- The loop of `PipeCleanerThread.run` together with the transmission
behaviour of each `send` call; each backlog entry is paired with its
call's outcome.  When `send` accepts only `n` bytes, only that prefix of
the payload reaches the sink, and because the code neither checks the
return value nor retries, the rest of the payload is silently dropped.
A raising `send` propagates out of `run`, ending the thread and stranding
every later entry. -/
def cleanerRunNet : ℚ → List (BackloggedData × SendOutcome) → List (ℚ × List ℕ)
  | _, [] => []
  | t, (e, o) :: rest =>
      let t2 := t + max 0 (e.waituntil - t)
      match o with
      | SendOutcome.accepted n => (t2, e.payload.take n) :: cleanerRunNet t2 rest
      | SendOutcome.raised => []

/-- The concatenation of the bytes actually transmitted to the sink
socket. -/
def wireBytes (t0 : ℚ) (xs : List (BackloggedData × SendOutcome)) : List ℕ :=
  ((cleanerRunNet t0 xs).map Prod.snd).flatten

/-!
Interleaved small-step model of one pipe: the `PipeThread` (reader) and its
`PipeCleanerThread` (sender) running concurrently, communicating only
through the FIFO `queue.Queue`.  `unfinished` is the queue's
`unfinished_tasks` counter: incremented by `put`, decremented by
`task_done`; `backlog.join()` returns only once it is zero, and only then
does `PipeThread.run` execute `PipeThread.pipes.remove(self)`.
-/

/-- Control location of the reader (`PipeThread.run`): in the `while True`
read loop, blocked in `self.backlog.join()`, or finished (after
`PipeThread.pipes.remove(self)`). -/
inductive RPhase where
  | reading
  | joining
  | done
deriving Repr, DecidableEq

/-- Control location of the cleaner (`PipeCleanerThread.run`): blocked in
`backlog.get`, holding a dequeued entry it has not yet sent, or having sent
it but not yet called `task_done`. -/
inductive CPhase where
  | idle
  | holding (e : BackloggedData)
  | didSend
deriving Repr, DecidableEq

/-- Joint state of one pipe's reader and cleaner threads. -/
structure PState where
  /-- outcomes `self.source.recv(1024)` will produce, oldest first -/
  events : List ReadEvent
  rphase : RPhase
  /-- entries `put` but not yet `get`, head = oldest -/
  queue : List BackloggedData
  /-- the `queue.Queue` internal `unfinished_tasks` counter -/
  unfinished : ℕ
  cphase : CPhase
  /-- payloads already written to the sink, in order -/
  sent : List (List ℕ)
  /-- whether this pipe is still in `PipeThread.pipes` -/
  registered : Bool
  /-- payloads enqueued so far, in order (history of `put` calls) -/
  enqueued : List (List ℕ)
deriving Repr, DecidableEq

/-- The state of a pipe when `PipeThread.run` starts: the constructor has
appended the pipe to `PipeThread.pipes`, the queue is empty, nothing sent. -/
def PState.start (evs : List ReadEvent) : PState :=
  ⟨evs, RPhase.reading, [], 0, CPhase.idle, [], true, []⟩

/-- One atomic step of either thread of the pipe.  `w` in `readData` is the
`waituntil` computed by `BackloggedData.__init__` for the chunk. -/
inductive Step : PState → PState → Prop where
  | readData (s : PState) (b : List ℕ) (es : List ReadEvent) (w : ℚ)
      (hr : s.rphase = RPhase.reading)
      (he : s.events = ReadEvent.recv b :: es) (hb : b ≠ []) :
      Step s { s with events := es,
                      queue := s.queue ++ [⟨w, b⟩],
                      unfinished := s.unfinished + 1,
                      enqueued := s.enqueued ++ [b] }
  | readEOF (s : PState) (es : List ReadEvent)
      (hr : s.rphase = RPhase.reading)
      (he : s.events = ReadEvent.recv [] :: es) :
      Step s { s with events := es, rphase := RPhase.joining }
  | readErr (s : PState) (es : List ReadEvent)
      (hr : s.rphase = RPhase.reading)
      (he : s.events = ReadEvent.err :: es) :
      Step s { s with events := es, rphase := RPhase.joining }
  | joinDone (s : PState)
      (hr : s.rphase = RPhase.joining) (hu : s.unfinished = 0) :
      Step s { s with rphase := RPhase.done, registered := false }
  | cleanerGet (s : PState) (e : BackloggedData) (q : List BackloggedData)
      (hc : s.cphase = CPhase.idle) (hq : s.queue = e :: q) :
      Step s { s with queue := q, cphase := CPhase.holding e }
  | cleanerSend (s : PState) (e : BackloggedData)
      (hc : s.cphase = CPhase.holding e) :
      Step s { s with sent := s.sent ++ [e.payload], cphase := CPhase.didSend }
  | cleanerTaskDone (s : PState)
      (hc : s.cphase = CPhase.didSend) :
      Step s { s with unfinished := s.unfinished - 1, cphase := CPhase.idle }

/-- States reachable from the start state by interleaving the two threads. -/
inductive Reachable (evs : List ReadEvent) : PState → Prop where
  | start : Reachable evs (PState.start evs)
  | step {s t : PState} : Reachable evs s → Step s t → Reachable evs t

/-- The payload the cleaner has dequeued but not yet sent, if any. -/
def cpending : CPhase → List (List ℕ)
  | CPhase.holding e => [e.payload]
  | _ => []

/-- How many `put` calls the cleaner has dequeued but not yet matched with
`task_done`. -/
def ccount : CPhase → ℕ
  | CPhase.idle => 0
  | _ => 1

/-- Inductive invariant of the pipe: the `unfinished_tasks` counter counts
queued entries plus the one the cleaner is processing; every enqueued
payload is either already sent, in the cleaner's hands, or still queued;
the pipe unregisters exactly when the reader finishes; and the reader
finishes only once `unfinished_tasks` is zero. -/
def PipeInv (s : PState) : Prop :=
  s.unfinished = s.queue.length + ccount s.cphase ∧
  s.enqueued = s.sent ++ cpending s.cphase ++ s.queue.map BackloggedData.payload ∧
  (s.registered = false ↔ s.rphase = RPhase.done) ∧
  (s.rphase = RPhase.done → s.unfinished = 0)

/-!  Model of `main` argument handling and `log` (for the `-q` flag). -/

/-- The module-level `LOGGING` variable as initialised at import time
(line 24 of the source). -/
def LOGGING0 : Bool := true

/-- Whether a call to `log` prints: it does exactly when the module-level
`LOGGING` it reads is true. -/
def logPrints (moduleLOGGING : Bool) : Bool := moduleLOGGING

/-- The value of the module-level `LOGGING` after `main` has parsed its
arguments.  The statement `LOGGING = False` in the body of `main` binds a
function-local variable, because `main` contains an assignment to the name
and no `global LOGGING` declaration; by Python's scoping rules the
module-level `LOGGING` read by `log` is therefore left unchanged,
whatever the arguments are. -/
def mainModuleLOGGING (_args : List String) : Bool := LOGGING0

/-- The function-local `LOGGING` binding created inside `main` by the loop
`while '-q' in args: LOGGING = False; args.remove('-q')` — bound to
`False` exactly when the flag occurs, and never read afterwards. -/
def mainLocalLOGGING (args : List String) : Option Bool :=
  if "-q" ∈ args then some false else none

/-!  Model of `LagProxy.run` (for outbound-connect failure containment). -/

/-- Outcome of the `remotesock.connect` call made for one accepted
connection. -/
inductive ConnectOutcome where
  | ok
  | fail
deriving Repr, DecidableEq

/-- How many accepted connections `LagProxy.run` equips with a pipe pair,
given the connect outcomes of the successive accepted connections.  The
body of `run` is `while True: accept; connect; start two PipeThreads` with
no exception handler: a failing `connect` raises out of `run`, so the loop
terminates and no later connection is ever accepted or served. -/
def pairsServed : List ConnectOutcome → ℕ
  | [] => 0
  | ConnectOutcome.ok :: rest => pairsServed rest + 1
  | ConnectOutcome.fail :: _ => 0

/-- Whether `LagProxy.run` terminates with an uncaught exception under the
given connect outcomes (it does at the first failing `connect`; nothing in
`run` closes the accepted local socket on that path). -/
def runCrashes : List ConnectOutcome → Bool
  | [] => false
  | ConnectOutcome.ok :: rest => runCrashes rest
  | ConnectOutcome.fail :: _ => true

/-- A concrete source-event sequence: one one-byte chunk, then
end-of-stream. -/
def demoEvents : List ReadEvent := [ReadEvent.recv [7], ReadEvent.recv []]

/-- The state of the pipe driven by `demoEvents` after the chunk has been
relayed and the pipe has unregistered. -/
def demoFinal : PState :=
  ⟨[], RPhase.done, [], 0, CPhase.idle, [[7]], false, [[7]]⟩

/-!  Helper lemmas about the functional pipeline. -/

theorem BackloggedData.payload_init (p : List ℕ) (delay : Option Delay) (now u : ℚ) :
    (BackloggedData.init p delay now u).payload = p := by
  cases delay <;> rfl

theorem readerEntries_map_payload (delay : Option Delay) (items : List (ReadEvent × ℚ × ℚ)) :
    (readerEntries delay items).map BackloggedData.payload
      = readerChunks (items.map Prod.fst) := by
  induction items with
  | nil => rfl
  | cons x rest ih =>
      obtain ⟨ev, t, u⟩ := x
      cases ev with
      | err => rfl
      | recv b =>
          by_cases hb : b = [] <;>
            simp [readerEntries, readerChunks, hb, ih, BackloggedData.payload_init]

theorem cleanerRun_map_snd (t : ℚ) (es : List BackloggedData) :
    (cleanerRun t es).map Prod.snd = es.map BackloggedData.payload := by
  induction es generalizing t with
  | nil => rfl
  | cons e es ih => simp [cleanerRun, ih]

theorem cleanerRun_length (t : ℚ) (es : List BackloggedData) :
    (cleanerRun t es).length = es.length := by
  induction es generalizing t with
  | nil => rfl
  | cons e es ih => simp [cleanerRun, ih]

theorem cleanerRun_fst_ge (t : ℚ) (es : List BackloggedData) :
    ∀ p ∈ cleanerRun t es, t ≤ p.1 := by
  induction es generalizing t with
  | nil => intro p hp; simp [cleanerRun] at hp
  | cons e es ih =>
      intro p hp
      have ht2 : t ≤ t + max 0 (e.waituntil - t) :=
        le_add_of_nonneg_right (le_max_left 0 _)
      rcases (by simpa [cleanerRun] using hp :
          p = (t + max 0 (e.waituntil - t), e.payload) ∨
            p ∈ cleanerRun (t + max 0 (e.waituntil - t)) es) with h | h
      · rw [h]; exact ht2
      · exact le_trans ht2 (ih _ p h)

theorem cleanerRun_times_pairwise (t : ℚ) (es : List BackloggedData) :
    List.Pairwise (· ≤ ·) ((cleanerRun t es).map Prod.fst) := by
  induction es generalizing t with
  | nil => simp [cleanerRun]
  | cons e es ih =>
      simp only [cleanerRun, List.map_cons]
      refine List.Pairwise.cons ?_ (ih _)
      intro y hy
      rcases List.mem_map.mp hy with ⟨p, hp, rfl⟩
      exact cleanerRun_fst_ge _ es p hp

theorem cleanerRun_getD_fst (t : ℚ) (es : List BackloggedData) (i : ℕ)
    (hi : i < es.length) :
    (es.getD i ⟨0, []⟩).waituntil ≤ ((cleanerRun t es).getD i (0, [])).1 := by
  induction es generalizing t i with
  | nil => exact absurd hi (by simp)
  | cons e es ih =>
      cases i with
      | zero =>
          simp only [cleanerRun, List.getD_cons_zero]
          have : e.waituntil - t ≤ max 0 (e.waituntil - t) := le_max_right 0 _
          linarith
      | succ i =>
          simp only [cleanerRun, List.getD_cons_succ]
          exact ih _ i (by simpa using Nat.lt_of_succ_lt_succ hi)

theorem readerChunks_ne_nil (evs : List ReadEvent) :
    ∀ c ∈ readerChunks evs, c ≠ [] := by
  induction evs with
  | nil => intro c hc; simp [readerChunks] at hc
  | cons ev rest ih =>
      intro c hc
      cases ev with
      | err => simp [readerChunks] at hc
      | recv b =>
          by_cases hb : b = []
          · simp [readerChunks, hb] at hc
          · rcases (by simpa [readerChunks, hb] using hc : c = b ∨ c ∈ readerChunks rest) with
              h | h
            · rw [h]; exact hb
            · exact ih c h

/-!  Helper lemmas about `Delay`. -/

theorem Delay.init_minseconds (m : ℚ) (mxo : Option ℚ) :
    (Delay.init m mxo).minseconds = m := by
  cases mxo with
  | none => rfl
  | some mx =>
      simp only [Delay.init]
      split_ifs <;> rfl

theorem Delay.init_min_le_max (m : ℚ) (mxo : Option ℚ) :
    (Delay.init m mxo).minseconds ≤ (Delay.init m mxo).maxseconds := by
  cases mxo with
  | none => exact le_refl m
  | some mx =>
      simp only [Delay.init]
      split_ifs with h
      · exact le_refl m
      · push_neg at h
        exact h.2

theorem Delay.getrandom_mem (d : Delay) (u : ℚ) (hd : d.minseconds ≤ d.maxseconds)
    (hu0 : 0 ≤ u) (hu1 : u ≤ 1) :
    d.minseconds ≤ d.getrandom u ∧ d.getrandom u ≤ d.maxseconds := by
  unfold Delay.getrandom
  constructor
  · nlinarith
  · nlinarith

theorem Delay.init_same (d : ℚ) : Delay.init d (some d) = ⟨d, d⟩ := by
  simp only [Delay.init]
  split_ifs <;> rfl

/-!  Helper lemmas about the interleaved pipe model. -/

theorem pipeInv_start (evs : List ReadEvent) : PipeInv (PState.start evs) := by
  refine ⟨rfl, rfl, ?_, ?_⟩ <;> simp [PState.start]

theorem pipeInv_step {s t : PState} (h : Step s t) (hs : PipeInv s) : PipeInv t := by
  obtain ⟨h1, h2, h3, h4⟩ := hs
  cases h with
  | readData b es w hr he hb =>
      refine ⟨?_, ?_, ?_, ?_⟩
      · simp only [List.length_append, List.length_cons, List.length_nil]
        omega
      · simp [h2, List.append_assoc]
      · simpa using h3
      · simp [hr]
  | readEOF es hr he =>
      have hreg : s.registered = true := by simpa [hr] using h3
      refine ⟨h1, h2, ?_, ?_⟩
      · simp [hreg]
      · simp
  | readErr es hr he =>
      have hreg : s.registered = true := by simpa [hr] using h3
      refine ⟨h1, h2, ?_, ?_⟩
      · simp [hreg]
      · simp
  | joinDone hr hu =>
      exact ⟨h1, h2, by simp, fun _ => hu⟩
  | cleanerGet e q hc hq =>
      refine ⟨?_, ?_, h3, h4⟩
      · simp [h1, hq, hc, ccount, cpending]
      · simp [h2, hq, hc, ccount, cpending]
  | cleanerSend e hc =>
      refine ⟨?_, ?_, h3, h4⟩
      · simp [h1, hc, ccount]
      · simp [h2, hc, cpending, List.append_assoc]
  | cleanerTaskDone hc =>
      refine ⟨?_, ?_, h3, ?_⟩
      · simp [h1, hc, ccount]
      · simp [h2, hc, cpending]
      · intro hd
        have h5 := h4 hd
        show s.unfinished - 1 = 0
        omega

theorem reachable_pipeInv {evs : List ReadEvent} {s : PState}
    (h : Reachable evs s) : PipeInv s := by
  induction h with
  | start => exact pipeInv_start evs
  | step _ hstep ih => exact pipeInv_step hstep ih

theorem ccount_eq_zero {c : CPhase} (h : ccount c = 0) : c = CPhase.idle := by
  cases c <;> simp_all [ccount]

/-- In any reachable state where the pipe has unregistered, the queue is
empty, the cleaner holds nothing, and every enqueued payload has been
written to the sink. -/
theorem reachable_drained {evs : List ReadEvent} {s : PState}
    (h : Reachable evs s) (hreg : s.registered = false) :
    s.queue = [] ∧ s.cphase = CPhase.idle ∧ s.sent = s.enqueued := by
  obtain ⟨h1, h2, h3, h4⟩ := reachable_pipeInv h
  have hdone : s.rphase = RPhase.done := h3.mp hreg
  have hu : s.unfinished = 0 := h4 hdone
  rw [hu] at h1
  have hq : s.queue = [] := List.length_eq_zero.mp (by omega)
  have hc : s.cphase = CPhase.idle := ccount_eq_zero (by omega)
  refine ⟨hq, hc, ?_⟩
  rw [h2, hq, hc]
  simp [cpending]

/-- In any reachable state, the payloads sent so far are an initial
segment of the payloads enqueued so far: the cleaner dequeues in exactly
the order the reader enqueued. -/
theorem reachable_sent_initial {evs : List ReadEvent} {s : PState}
    (h : Reachable evs s) : ∃ rest, s.enqueued = s.sent ++ rest := by
  obtain ⟨-, h2, -, -⟩ := reachable_pipeInv h
  exact ⟨cpending s.cphase ++ s.queue.map BackloggedData.payload, by
    rw [h2, List.append_assoc]⟩

/-- The reader leaves its read loop only when the head event is an empty
read (end-of-stream) or an exception. -/
theorem reader_exit_cause {s t : PState} (h : Step s t)
    (hr : s.rphase = RPhase.reading) (ht : t.rphase ≠ RPhase.reading) :
    (∃ es, s.events = ReadEvent.recv [] :: es) ∨
      (∃ es, s.events = ReadEvent.err :: es) := by
  cases h with
  | readData b es w hr' he hb => exact absurd hr ht
  | readEOF es hr' he => exact Or.inl ⟨es, he⟩
  | readErr es hr' he => exact Or.inr ⟨es, he⟩
  | joinDone hr' hu => rw [hr] at hr'; exact absurd hr' (by decide)
  | cleanerGet e q hc hq => exact absurd hr ht
  | cleanerSend e hc => exact absurd hr ht
  | cleanerTaskDone hc => exact absurd hr ht

/-- The pipe unregisters only in the step that finishes `backlog.join()`:
from the joining phase with `unfinished_tasks = 0`. -/
theorem unregister_only_after_join {s t : PState} (h : Step s t)
    (hs : s.registered = true) (ht : t.registered = false) :
    s.rphase = RPhase.joining ∧ s.unfinished = 0 := by
  cases h with
  | readData b es w hr he hb => simp [hs] at ht
  | readEOF es hr he => simp [hs] at ht
  | readErr es hr he => simp [hs] at ht
  | joinDone hr hu => exact ⟨hr, hu⟩
  | cleanerGet e q hc hq => simp [hs] at ht
  | cleanerSend e hc => simp [hs] at ht
  | cleanerTaskDone hc => simp [hs] at ht

/-- `demoFinal` is reachable from the start state: the reader enqueues the
chunk, the cleaner relays it, the reader sees end-of-stream, joins, and
unregisters. -/
theorem demoFinal_reachable : Reachable demoEvents demoFinal := by
  have h0 : Reachable demoEvents (PState.start demoEvents) := Reachable.start
  have h1 := Reachable.step h0
    (Step.readData _ [7] [ReadEvent.recv []] 0 rfl rfl (by decide))
  have h2 := Reachable.step h1 (Step.cleanerGet _ ⟨0, [7]⟩ [] rfl rfl)
  have h3 := Reachable.step h2 (Step.cleanerSend _ ⟨0, [7]⟩ rfl)
  have h4 := Reachable.step h3 (Step.cleanerTaskDone _ rfl)
  have h5 := Reachable.step h4 (Step.readEOF _ [] rfl rfl)
  exact Reachable.step h5 (Step.joinDone _ rfl rfl)

theorem BackloggedData.waituntil_init_some (p : List ℕ) (dl : Delay) (now u : ℚ) :
    (BackloggedData.init p (some dl) now u).waituntil = now + dl.getrandom u := rfl

theorem Delay.getrandom_same (d u : ℚ) : (Delay.init d (some d)).getrandom u = d := by
  rw [Delay.init_same]
  simp [Delay.getrandom]

/-- The send-call arguments are faithful: the payloads the cleaner passes
to `sink.send` are exactly the chunks the reader consumed from the source,
in the same order, and their concatenation equals the bytes read.  What
each call then transmits is a separate matter (`cleanerRunNet`). -/
theorem send_call_args_fidelity (delay : Option Delay) (t0 : ℚ)
    (items : List (ReadEvent × ℚ × ℚ)) :
    sinkBytes t0 (readerEntries delay items) = sourceBytes (items.map Prod.fst) ∧
    sinkWrites t0 (readerEntries delay items) = readerChunks (items.map Prod.fst) := by
  have hw : sinkWrites t0 (readerEntries delay items)
      = readerChunks (items.map Prod.fst) := by
    rw [sinkWrites, cleanerRun_map_snd, readerEntries_map_payload]
  exact ⟨by rw [sinkBytes, hw, sourceBytes], hw⟩

/-- When every `send` call accepts its whole payload, the transmission
model coincides with the send-call record `cleanerRun`: full per-call
acceptance is exactly the assumption under which the relay is lossless. -/
theorem cleanerRunNet_full_acceptance :
    ∀ (xs : List (BackloggedData × SendOutcome)) (t : ℚ),
      (∀ x ∈ xs, ∃ n, x.2 = SendOutcome.accepted n ∧ x.1.payload.length ≤ n) →
      cleanerRunNet t xs = cleanerRun t (xs.map Prod.fst) := by
  intro xs
  induction xs with
  | nil => intro t h; rfl
  | cons x rest ih =>
      intro t h
      obtain ⟨e, o⟩ := x
      obtain ⟨n, ho, hn⟩ := h (e, o) (List.mem_cons_self _ _)
      simp only at ho hn
      subst ho
      simp only [cleanerRunNet, cleanerRun, List.map_cons]
      rw [List.take_of_length_le hn]
      exact congrArg _ (ih _ fun y hy => h y (List.mem_cons_of_mem _ hy))

/-!  The claims. -/

/-- C1 code bug: the relay does not guarantee that the bytes arriving at
the sink equal the bytes read from the source.  Line 93 calls
`sink.send(data.payload)` and discards the result: when the sink's kernel
buffer accepts only a prefix — here 1 byte of the chunk [1,2,3] the reader
took from the source — the remaining bytes are silently lost, and a
raising `send` strands every later entry undelivered.  The send-call
arguments themselves are faithful (`send_call_args_fidelity`); full
delivery holds only under the per-call full-acceptance assumption
(`cleanerRunNet_full_acceptance`) that `socket.send` does not provide. -/
theorem sink_send_partial_write_loses_bytes :
    sourceBytes [ReadEvent.recv [1, 2, 3], ReadEvent.recv []] = [1, 2, 3] ∧
    wireBytes 0 ((readerEntries none [(ReadEvent.recv [1, 2, 3], 0, 0)]).zip
        [SendOutcome.accepted 1]) = [1] ∧
    wireBytes 0 ((readerEntries none [(ReadEvent.recv [1, 2, 3], 0, 0)]).zip
        [SendOutcome.accepted 1]) ≠
      sourceBytes [ReadEvent.recv [1, 2, 3], ReadEvent.recv []] ∧
    wireBytes 0 [(⟨0, [1]⟩, SendOutcome.raised), (⟨0, [2]⟩, SendOutcome.accepted 1)]
      = [] := by
  refine ⟨by decide, by decide, by decide, by decide⟩

/-- C2: the backlog queue is strictly FIFO: the cleaner delivers payloads
in exactly the order they were enqueued, for every choice of `waituntil`
values, and its successive send times never decrease, so a later chunk is
never delivered before an earlier one even when its sampled delay is
shorter; moreover, in every reachable interleaved state the payloads sent
so far are an initial segment of the payloads enqueued so far. -/
theorem backlog_fifo_order :
    (∀ (t0 : ℚ) (es : List BackloggedData),
        (cleanerRun t0 es).map Prod.snd = es.map BackloggedData.payload ∧
        List.Pairwise (· ≤ ·) ((cleanerRun t0 es).map Prod.fst)) ∧
    (∀ (evs : List ReadEvent) (s : PState), Reachable evs s →
        ∃ rest, s.enqueued = s.sent ++ rest) :=
  ⟨fun t0 es => ⟨cleanerRun_map_snd t0 es, cleanerRun_times_pairwise t0 es⟩,
   fun _ _ h => reachable_sent_initial h⟩

theorem backlog_fifo_order_witness :
    ((cleanerRun 0 [⟨1, [7]⟩, ⟨0, [8]⟩]).map Prod.snd = [[7], [8]]) ∧
    (∃ rest, demoFinal.enqueued = demoFinal.sent ++ rest) := by
  constructor
  · rw [(backlog_fifo_order.1 0 [⟨1, [7]⟩, ⟨0, [8]⟩]).1]
    rfl
  · exact backlog_fifo_order.2 demoEvents demoFinal demoFinal_reachable

/-- C3: for a delay policy with min = max = d, every chunk is written to
the sink at a clock reading at least its source-read time plus d: the
cleaner sleeps `max(0, waituntil - now)` before sending, and `waituntil`
is the read time plus d. -/
theorem fixed_delay_lower_bound (d t0 : ℚ) (chunks : List (List ℕ × ℚ × ℚ))
    (i : ℕ) (hi : i < chunks.length) :
    (chunks.getD i ([], 0, 0)).2.1 + d ≤
      ((cleanerRun t0 (chunks.map fun c =>
          BackloggedData.init c.1 (some (Delay.init d (some d))) c.2.1 c.2.2)).getD
        i (0, [])).1 := by
  have hlen : i < (chunks.map fun c =>
      BackloggedData.init c.1 (some (Delay.init d (some d))) c.2.1 c.2.2).length := by
    simpa using hi
  have h := cleanerRun_getD_fst t0 _ i hlen
  have hwait : ((chunks.map fun c =>
        BackloggedData.init c.1 (some (Delay.init d (some d))) c.2.1 c.2.2).getD
          i ⟨0, []⟩).waituntil
      = (chunks.getD i ([], 0, 0)).2.1 + d := by
    rw [List.getD_eq_getElem _ _ hlen, List.getD_eq_getElem chunks _ hi,
      List.getElem_map]
    rw [BackloggedData.waituntil_init_some, Delay.getrandom_same]
  rw [hwait] at h
  exact h

theorem fixed_delay_lower_bound_witness :
    (0 < ([(([5] : List ℕ), (2 : ℚ), (0 : ℚ))] : List (List ℕ × ℚ × ℚ)).length) ∧
    (([(([5] : List ℕ), (2 : ℚ), (0 : ℚ))].getD 0 ([], 0, 0)).2.1 + 1 ≤
      ((cleanerRun 0 ([(([5] : List ℕ), (2 : ℚ), (0 : ℚ))].map fun c =>
          BackloggedData.init c.1 (some (Delay.init 1 (some 1))) c.2.1 c.2.2)).getD
        0 (0, [])).1) :=
  ⟨by decide, fixed_delay_lower_bound 1 0 [([5], 2, 0)] 0 (by decide)⟩

/-- C4: code bug — an outbound-connect failure is not contained to the
single connection pair: `LagProxy.run` wraps `remotesock.connect` in no
handler, so the exception escapes the accept loop; with outcomes
[fail, ok] the loop crashes and the second connection, which on its own
would be served, is never served. -/
theorem connect_failure_escapes_accept_loop :
    runCrashes [ConnectOutcome.fail, ConnectOutcome.ok] = true ∧
    pairsServed [ConnectOutcome.fail, ConnectOutcome.ok] = 0 ∧
    pairsServed [ConnectOutcome.ok] = 1 :=
  ⟨rfl, rfl, rfl⟩

/-- C5: the `waituntil` of a `BackloggedData` equals the construction
(enqueue) time plus one freshly sampled delay when a policy is configured,
and exactly the construction time when the policy is `None`. -/
theorem backloggedData_releaseAt (p : List ℕ) (dl : Delay) (now u : ℚ) :
    (BackloggedData.init p (some dl) now u).waituntil = now + dl.getrandom u ∧
    (BackloggedData.init p none now u).waituntil = now :=
  ⟨rfl, rfl⟩

/-- C6: the reader leaves its read loop only when the head read event is a
zero-length read or an error; the pipe unregisters only in the step where
`backlog.join()` returns (`unfinished_tasks = 0`); and in every reachable
state where the pipe has unregistered, the queue is empty, the cleaner
holds nothing, and every enqueued payload has been written to the sink. -/
theorem reader_stop_drain_unregister :
    (∀ (evs : List ReadEvent) (s : PState), Reachable evs s →
        s.registered = false →
        s.queue = [] ∧ s.cphase = CPhase.idle ∧ s.sent = s.enqueued) ∧
    (∀ s t : PState, Step s t → s.rphase = RPhase.reading →
        t.rphase ≠ RPhase.reading →
        (∃ es, s.events = ReadEvent.recv [] :: es) ∨
          ∃ es, s.events = ReadEvent.err :: es) ∧
    (∀ s t : PState, Step s t → s.registered = true → t.registered = false →
        s.rphase = RPhase.joining ∧ s.unfinished = 0) :=
  ⟨fun _ _ h hreg => reachable_drained h hreg,
   fun _ _ h hr ht => reader_exit_cause h hr ht,
   fun _ _ h hs ht => unregister_only_after_join h hs ht⟩

theorem reader_stop_drain_unregister_witness :
    demoFinal.queue = [] ∧ demoFinal.cphase = CPhase.idle ∧
      demoFinal.sent = demoFinal.enqueued :=
  reader_stop_drain_unregister.1 demoEvents demoFinal demoFinal_reachable rfl

/-- C7: a `Delay` built with no maximum returns exactly its minimum on
every draw; with max ≥ min every draw lies within [min, max]; after
construction maxseconds ≥ minseconds always holds, an unset or inverted
maximum collapsing to minseconds. -/
theorem delay_getrandom_range :
    (∀ m u : ℚ, 0 ≤ u → u ≤ 1 → (Delay.init m none).getrandom u = m) ∧
    (∀ m mx u : ℚ, m ≤ mx → 0 ≤ u → u ≤ 1 →
        m ≤ (Delay.init m (some mx)).getrandom u ∧
          (Delay.init m (some mx)).getrandom u ≤ mx) ∧
    (∀ (m : ℚ) (mxo : Option ℚ),
        (Delay.init m mxo).minseconds ≤ (Delay.init m mxo).maxseconds) ∧
    (∀ m : ℚ, (Delay.init m none).maxseconds = m) ∧
    (∀ m mx : ℚ, mx < m → (Delay.init m (some mx)).maxseconds = m) := by
  refine ⟨?_, ?_, Delay.init_min_le_max, fun m => rfl, ?_⟩
  · intro m u _ _
    simp [Delay.init, Delay.getrandom]
  · intro m mx u hmm hu0 hu1
    by_cases hc : mx = 0 ∨ mx < m
    · have hcol : Delay.init m (some mx) = ⟨m, m⟩ := by
        simp only [Delay.init]
        rw [if_pos hc]
      rw [hcol]
      constructor
      · simp [Delay.getrandom]
      · simpa [Delay.getrandom] using hmm
    · have hkeep : Delay.init m (some mx) = ⟨m, mx⟩ := by
        simp only [Delay.init]
        rw [if_neg hc]
      rw [hkeep]
      exact Delay.getrandom_mem ⟨m, mx⟩ u hmm hu0 hu1
  · intro m mx h
    simp only [Delay.init]
    rw [if_pos (Or.inr h)]

theorem delay_getrandom_range_witness :
    ((0 : ℚ) ≤ 1/2 ∧ (1/2 : ℚ) ≤ 1 ∧ (2 : ℚ) ≤ 5) ∧
    (Delay.init 2 none).getrandom (1/2) = 2 ∧
    (2 ≤ (Delay.init 2 (some 5)).getrandom (1/2) ∧
      (Delay.init 2 (some 5)).getrandom (1/2) ≤ 5) :=
  ⟨⟨by norm_num, by norm_num, by norm_num⟩,
   delay_getrandom_range.1 2 (1/2) (by norm_num) (by norm_num),
   delay_getrandom_range.2.1 2 5 (1/2) (by norm_num) (by norm_num) (by norm_num)⟩

/-- C8 counterexample: the constructor accepts a negative minimum without
normalizing it, and the draw u = 0 (a value `random()` can approach) then
yields the negative duration -1: not every accepted `Delay` produces
non-negative samples. -/
theorem delay_negative_duration_counterexample :
    (0 : ℚ) ≤ 0 ∧ (0 : ℚ) ≤ 1 ∧ (Delay.init (-1) none).getrandom 0 = -1 ∧
      (Delay.init (-1) none).getrandom 0 < 0 := by
  refine ⟨le_refl 0, by norm_num, ?_, ?_⟩ <;>
    norm_num [Delay.init, Delay.getrandom]

/-- C8 amended: every sample is bounded below by the configured minimum,
so every sample is non-negative whenever the minimum is non-negative;
inverted or unset maxima are normalized to the minimum at construction,
but a negative minimum is not normalized and yields negative samples. -/
theorem delay_getrandom_nonneg (m : ℚ) (mxo : Option ℚ) (u : ℚ)
    (hm : 0 ≤ m) (hu0 : 0 ≤ u) (hu1 : u ≤ 1) :
    0 ≤ (Delay.init m mxo).getrandom u := by
  have h1 := Delay.init_min_le_max m mxo
  have h2 := (Delay.getrandom_mem _ u h1 hu0 hu1).1
  rw [Delay.init_minseconds] at h2
  linarith

theorem delay_getrandom_nonneg_witness :
    ((0 : ℚ) ≤ 2 ∧ (0 : ℚ) ≤ 1/3 ∧ (1/3 : ℚ) ≤ 1) ∧
    0 ≤ (Delay.init 2 (some 4)).getrandom (1/3) :=
  ⟨⟨by norm_num, by norm_num, by norm_num⟩,
   delay_getrandom_nonneg 2 (some 4) (1/3) (by norm_num) (by norm_num)
     (by norm_num)⟩

/-- C9 code bug: even with `-q` among the arguments, the assignment in
`main` binds only a function-local `LOGGING`; the module-level `LOGGING`
read by `log` stays true, so `log` still prints. -/
theorem q_flag_leaves_logging_enabled :
    "-q" ∈ [ "-q", "8080", "example.com", "80" ] ∧
    mainLocalLOGGING [ "-q", "8080", "example.com", "80" ] = some false ∧
    logPrints (mainModuleLOGGING [ "-q", "8080", "example.com", "80" ]) = true := by
  refine ⟨?_, ?_, rfl⟩
  · simp
  · simp [mainLocalLOGGING]

/-- C10: every entry the reader enqueues has a non-empty payload (a
zero-length read breaks the loop before any enqueue), so the cleaner never
writes a zero-byte payload to the sink. -/
theorem no_empty_payload_enqueued (delay : Option Delay) (t0 : ℚ)
    (items : List (ReadEvent × ℚ × ℚ)) :
    (∀ e ∈ readerEntries delay items, e.payload ≠ []) ∧
    (∀ p ∈ sinkWrites t0 (readerEntries delay items), p ≠ []) := by
  have hchunks := readerChunks_ne_nil (items.map Prod.fst)
  constructor
  · intro e he
    have hmem : e.payload ∈ (readerEntries delay items).map BackloggedData.payload :=
      List.mem_map_of_mem _ he
    rw [readerEntries_map_payload] at hmem
    exact hchunks _ hmem
  · intro p hp
    rw [sinkWrites, cleanerRun_map_snd, readerEntries_map_payload] at hp
    exact hchunks p hp

theorem no_empty_payload_enqueued_witness :
    (∀ e ∈ readerEntries none [(ReadEvent.recv [3], 0, 0)], e.payload ≠ []) ∧
    (∀ p ∈ sinkWrites 0 (readerEntries none [(ReadEvent.recv [3], 0, 0)]), p ≠ []) :=
  no_empty_payload_enqueued none 0 [(ReadEvent.recv [3], 0, 0)]

end Lagproxy
